import Mathlib

/-!
A shallow embedding of the media-to-sidecar matching engine of
`src/matcher.py` (Google Photos metadata restorer).

Filenames are modelled as `List Char`; a directory is the ordered listing
of the names of the files it contains (`Dir`).  Python's `str.lower` is
modelled by `Char.toLower` per character (exact on ASCII, which is all the
matching logic distinguishes), `str.rstrip` by dropping trailing whitespace
characters, and `pathlib.Path.suffix`/`.stem` by the last-dot split with
pathlib's corner cases (leading dot, trailing dot).  Confidences are
rationals.  Filesystem existence checks become membership in the directory
listing; the lazy per-directory cache is modelled separately, with an
explicit state and an oracle that may fail, for the claims about it.
-/

namespace GPhotos

/-- A filename (one path component), as its list of characters. -/
abbrev Name := List Char

/-- Python `str.lower` (per-character; exact on ASCII). -/
def lowerName (n : Name) : Name := n.map Char.toLower

/-- Python `str.upper` (per-character; exact on ASCII). -/
def upperName (n : Name) : Name := n.map Char.toUpper

/-- Python `str.rstrip()`: drop trailing whitespace. -/
def rstripName (n : Name) : Name := (n.reverse.dropWhile Char.isWhitespace).reverse

/-- Python `str.lstrip('.')`: drop leading dots. -/
def stripLeadingDots (n : Name) : Name := n.dropWhile (· == '.')

/-- Python `s[:-k]` on a string of length at least `k`: drop the last `k`
characters. -/
def pyDropLast (n : Name) (k : Nat) : Name := n.take (n.length - k)

/-- Python `sub in s`: `sub` occurs contiguously somewhere in `n`. -/
def containsSub (n sub : Name) : Bool :=
  (List.range (n.length + 1)).any fun i => sub.isPrefixOf (n.drop i)

/-- The sidecar extension `".json"`. -/
def dotJson : Name := ".json".toList

/-- `IMAGE_EXTENSIONS` from `matcher.py`. -/
def IMAGE_EXTENSIONS : List Name :=
  [".jpg".toList, ".jpeg".toList, ".png".toList, ".gif".toList, ".bmp".toList,
   ".tiff".toList, ".tif".toList, ".webp".toList, ".heic".toList, ".heif".toList,
   ".raw".toList, ".cr2".toList, ".nef".toList, ".arw".toList, ".dng".toList,
   ".orf".toList, ".rw2".toList, ".pef".toList, ".srw".toList]

/-- `VIDEO_EXTENSIONS` from `matcher.py`. -/
def VIDEO_EXTENSIONS : List Name :=
  [".mp4".toList, ".mov".toList, ".avi".toList, ".mkv".toList, ".wmv".toList,
   ".flv".toList, ".webm".toList, ".m4v".toList, ".3gp".toList, ".3g2".toList,
   ".mts".toList, ".m2ts".toList, ".mpg".toList, ".mpeg".toList]

/-- `MEDIA_EXTENSIONS = IMAGE_EXTENSIONS | VIDEO_EXTENSIONS`. -/
def MEDIA_EXTENSIONS : List Name := IMAGE_EXTENSIONS ++ VIDEO_EXTENSIONS

/-- Index of the last `'.'` in a name, if any (`str.rfind('.')`). -/
def lastDotIdx (n : Name) : Option Nat :=
  (n.reverse.findIdx? (· == '.')).map (fun k => n.length - 1 - k)

/-- `pathlib.Path.suffix` on a bare filename: the part from the last dot,
provided that dot is neither the first nor the last character. -/
def suffixOf (n : Name) : Name :=
  match lastDotIdx n with
  | none => []
  | some i => if 0 < i ∧ i < n.length - 1 then n.drop i else []

/-- `pathlib.Path.stem` on a bare filename. -/
def stemOf (n : Name) : Name :=
  match lastDotIdx n with
  | none => n
  | some i => if 0 < i ∧ i < n.length - 1 then n.take i else n

/-- A directory: the ordered listing of the (plain-file) names it contains. -/
abbrev Dir := List Name

/-- `Path.exists()` within the media file's directory. -/
def fileExists (d : Dir) (n : Name) : Bool := d.contains n

/-- `is_media_file`: the suffix, lowercased, is a media extension. -/
def is_media_file (n : Name) : Bool := MEDIA_EXTENSIONS.contains (lowerName (suffixOf n))

/-- One media-extension test of `is_json_metadata_file`: `base` ends with
`'.' + e` for the full extension `e` or a proper nonempty truncation of it
(`for i in range(1, len(ext))`). -/
def truncExtHit (base : Name) (e : Name) : Bool :=
  (('.' :: e).isSuffixOf (lowerName base)) ||
  ((List.range' 1 (e.length - 1)).any fun i => ('.' :: e.take i).isSuffixOf (lowerName base))

/-- `is_json_metadata_file` from `matcher.py`: a `.json` file whose base
(the name with `'.json'` removed) ends with a media extension, possibly
truncated, or contains a supplemental-metadata marker. -/
def is_json_metadata_file (n : Name) : Bool :=
  if lowerName (suffixOf n) ≠ dotJson then false
  else
    let base := pyDropLast n 5
    (MEDIA_EXTENSIONS.any fun ext => truncExtHit base (stripLeadingDots ext)) ||
    containsSub (lowerName base) ".supplemental".toList ||
    containsSub (lowerName base) ".supplem".toList

/-- The `.json` files of a directory listing, in listing order (the body of
`_get_json_files_in_directory`, for a fixed filesystem). -/
def jsonFilesIn (d : Dir) : List Name := d.filter fun f => lowerName (suffixOf f) == dotJson

/-- The supplemental-marker suffixes stripped by the truncated strategy and
the orphan detector, in the order the code tests them. -/
def SUPPLEM_PATTERNS : List Name :=
  [".supplemental-metadata".toList, ".supplemental-met".toList, ".supplemental".toList,
   ".supplem".toList, ".supple".toList, ".suppl".toList, ".supp".toList,
   ".sup".toList, ".su".toList, ".s".toList]

/-- Strip the first supplemental pattern that is a (case-insensitive)
suffix, then stop (the `for`/`break` loop shared by `_try_truncated_match`
and `find_orphaned_json_files`). -/
def stripSupplem (t : Name) : Name :=
  match SUPPLEM_PATTERNS.find? (fun p => p.isSuffixOf (lowerName t)) with
  | some p => pyDropLast t p.length
  | none => t

/-- The presumed truncated media-name of a sidecar: its name with `'.json'`
removed and the optional supplemental marker stripped. -/
def truncNameOf (j : Name) : Name := stripSupplem (pyDropLast j 5)

/-- Acceptance test of one sidecar candidate in `_try_truncated_match`:
the name ends with `.json`, its truncated media-name has at least 5
characters, and either the media filename starts with it
(case-insensitively), or it equals, after right-stripping, the media
filename's corresponding prefix. -/
def truncAccept (m j : Name) : Bool :=
  dotJson.isSuffixOf (lowerName j) &&
  (decide (5 ≤ (truncNameOf j).length) &&
   ((lowerName (truncNameOf j)).isPrefixOf (lowerName m) ||
    (rstripName (lowerName (truncNameOf j)) ==
      lowerName (m.take (rstripName (truncNameOf j)).length))))

/-- The best-match loop of `_try_truncated_match`: keep the first candidate
whose truncated media-name is strictly longer than the best so far. -/
def truncLoop (m : Name) : List Name → Option Name → Nat → Option Name
  | [], best, _ => best
  | j :: rest, best, bestLen =>
    if truncAccept m j && decide (bestLen < (truncNameOf j).length) then
      truncLoop m rest (some j) (truncNameOf j).length
    else
      truncLoop m rest best bestLen

/-- `_try_truncated_match` over a fixed directory listing. -/
def _try_truncated_match (d : Dir) (m : Name) : Option Name :=
  truncLoop m (jsonFilesIn d) none 0

/-- `EDITED_PATTERNS` from `matcher.py` (the literal token of each regex,
which is anchored with `$` and matched case-insensitively). -/
def EDITED_PATTERNS : List Name :=
  ["-edited".toList, "-bearbeitet".toList, "-modifié".toList,
   "-editado".toList, "-modificato".toList, "-編集済み".toList]

/-- `re.search(tok + '$', stem, IGNORECASE)` followed by
`re.sub(tok + '$', '', stem, IGNORECASE)`: in Python, `$` also matches just
before one trailing newline, so both positions are modelled. Returns the
stem with the matched token removed, or `none` when the pattern misses. -/
def editedStrip (tok stem : Name) : Option Name :=
  if tok.isSuffixOf (lowerName stem) then some (pyDropLast stem tok.length)
  else if (tok ++ ['\n']).isSuffixOf (lowerName stem) then
    some (pyDropLast stem (tok.length + 1) ++ ['\n'])
  else none

/-- The pattern loop of `_try_edited_match`: the first matching token wins;
its branch returns (an existing original sidecar, or whatever the truncated
fallback yields) without trying later tokens. -/
def editedLoop (d : Dir) (stem ext : Name) : List Name → Option Name
  | [] => none
  | tok :: rest =>
    match editedStrip tok stem with
    | some originalStem =>
      if fileExists d (originalStem ++ ext ++ dotJson) then
        some (originalStem ++ ext ++ dotJson)
      else
        _try_truncated_match d (originalStem ++ ext)
    | none => editedLoop d stem ext rest

/-- `_try_edited_match` over a fixed directory listing. -/
def _try_edited_match (d : Dir) (m : Name) : Option Name :=
  editedLoop d (stemOf m) (suffixOf m) EDITED_PATTERNS

/-- The match of `NUMBERED_PATTERN = r'^(.+?)(\(\d+\))(\.[^.]+)$'` against a
filename: `some (base, number-with-parentheses, dot-extension)` when the
regex matches.  Group 3 is forced to start at the last dot (its body admits
no dot and it is anchored at the end), group 2 is the maximal parenthesised
digit run ending just before that dot, and group 1 is the nonempty rest. -/
def parseNumbered (n : Name) : Option (Name × Name × Name) :=
  match lastDotIdx n with
  | none => none
  | some i =>
    if i + 1 < n.length then
      match (n.take i).reverse with
      | ')' :: rest =>
        let digits := rest.takeWhile Char.isDigit
        if digits.length > 0 then
          match rest.drop digits.length with
          | '(' :: baseRev =>
            if baseRev.length > 0 then
              some (baseRev.reverse, '(' :: (digits.reverse ++ [')']), n.drop i)
            else none
          | _ => none
        else none
      | _ => none
    else none

/-- `_try_numbered_match`: on a parse, try `base(n).ext.json`,
`base.ext(n).json`, `base.ext.json` in that order (first existing wins),
then fall back to the truncated strategy. -/
def _try_numbered_match (d : Dir) (m : Name) : Option Name :=
  match parseNumbered m with
  | none => none
  | some (base, num, ext) =>
    if fileExists d (base ++ num ++ ext ++ dotJson) then
      some (base ++ num ++ ext ++ dotJson)
    else if fileExists d (base ++ ext ++ num ++ dotJson) then
      some (base ++ ext ++ num ++ dotJson)
    else if fileExists d (base ++ ext ++ dotJson) then
      some (base ++ ext ++ dotJson)
    else
      _try_truncated_match d m

/-- The supplementary suffixes of `_try_supplementary_match`. -/
def SUPPLEMENTARY_SUFFIXES : List Name :=
  ["-EFFECTS".toList, "-ANIMATION".toList, "-COLLAGE".toList,
   "-PANO".toList, "-MOTION".toList]

/-- The suffix loop of `_try_supplementary_match`: first suffix of the
uppercased stem wins; its branch returns an existing original sidecar or
the truncated fallback. -/
def supplementaryLoop (d : Dir) (stem ext : Name) : List Name → Option Name
  | [] => none
  | s :: rest =>
    if s.isSuffixOf (upperName stem) then
      if fileExists d (pyDropLast stem s.length ++ ext ++ dotJson) then
        some (pyDropLast stem s.length ++ ext ++ dotJson)
      else
        _try_truncated_match d (pyDropLast stem s.length ++ ext)
    else supplementaryLoop d stem ext rest

/-- `_try_supplementary_match` over a fixed directory listing. -/
def _try_supplementary_match (d : Dir) (m : Name) : Option Name :=
  supplementaryLoop d (stemOf m) (suffixOf m) SUPPLEMENTARY_SUFFIXES

/-- `MatchResult` from `matcher.py`. -/
structure MatchResult where
  media_path : Name
  json_path : Option Name
  match_type : String
  confidence : ℚ
deriving DecidableEq, Repr

/-- `find_json_for_media`: the five strategies in the code's order —
exact, truncated, edited, numbered, supplementary — then the no-match
result. -/
def find_json_for_media (d : Dir) (m : Name) : MatchResult :=
  if fileExists d (m ++ dotJson) then ⟨m, some (m ++ dotJson), "exact", 1⟩
  else match _try_truncated_match d m with
  | some j => ⟨m, some j, "truncated", 0.95⟩
  | none => match _try_edited_match d m with
    | some j => ⟨m, some j, "edited", 0.9⟩
    | none => match _try_numbered_match d m with
      | some j => ⟨m, some j, "numbered", 0.85⟩
      | none => match _try_supplementary_match d m with
        | some j => ⟨m, some j, "supplementary", 0.75⟩
        | none => ⟨m, none, "none", 0⟩

/-- The media-file scan of `find_orphaned_json_files`: is there a media
file in the directory whose lowercased name starts with the sidecar's
lowercased, right-stripped base? -/
def has_media_match (d : Dir) (base : Name) : Bool :=
  d.any fun f => is_media_file f && (rstripName (lowerName base)).isPrefixOf (lowerName f)

/-- `find_orphaned_json_files` over a single directory listing
(`glob("*.json")` is case-sensitive): a globbed file is reported orphaned
when it is recognised as a metadata sidecar and no media file of the
directory matches its stripped base. -/
def find_orphaned_json_files (d : Dir) : List Name :=
  (d.filter fun f => dotJson.isSuffixOf f).filter fun j =>
    is_json_metadata_file j &&
    dotJson.isSuffixOf (lowerName j) &&
    !(has_media_match d (truncNameOf j))

/-- A raw directory entry as the filesystem reports it: a name plus whether
it is a plain file (`Path.is_file()`). -/
structure DirEntry where
  name : Name
  isFile : Bool
deriving DecidableEq

/-- The filesystem oracle for the cache model: listing a directory (keyed
by a normalized path key) either succeeds with its entries or raises. -/
abbrev FsOracle := Nat → Except String (List DirEntry)

/-- The mutable state of `MediaFileMatcher` relevant to the directory
index: the `_json_cache` mapping, plus instrumentation counting performed
filesystem listings and logged warnings. -/
structure MatcherState where
  json_cache : List (Nat × List Name)
  fs_listings : Nat
  warnings_logged : Nat
deriving DecidableEq

/-- Dictionary lookup in `_json_cache`. -/
def cacheLookup (c : List (Nat × List Name)) (k : Nat) : Option (List Name) :=
  (c.find? (fun e => e.1 == k)).map (·.2)

/-- The `.json`-file filter applied to a raw listing
(`f.is_file() and f.suffix.lower() == '.json'`). -/
def filterJsonEntries (es : List DirEntry) : List Name :=
  (es.filter fun e => e.isFile && lowerName (suffixOf e.name) == dotJson).map (·.name)

/-- `_get_json_files_in_directory`: on a cache miss, list the directory —
caching the filtered result, or caching `[]` after logging a warning when
the listing raises — and return the cached entry; on a hit, return the
cached list unchanged without touching the filesystem. -/
def _get_json_files_in_directory (fs : FsOracle) (st : MatcherState) (dk : Nat) :
    List Name × MatcherState :=
  match cacheLookup st.json_cache dk with
  | some l => (l, st)
  | none =>
    match fs dk with
    | Except.ok entries =>
      let l := filterJsonEntries entries
      (l, { st with json_cache := (dk, l) :: st.json_cache,
                    fs_listings := st.fs_listings + 1 })
    | Except.error _ =>
      ([], { st with json_cache := (dk, []) :: st.json_cache,
                     fs_listings := st.fs_listings + 1,
                     warnings_logged := st.warnings_logged + 1 })

/-- `clear_cache`: `self._json_cache.clear()`. -/
def clear_cache (st : MatcherState) : MatcherState := { st with json_cache := [] }

/-- The kind/confidence pairs of `find_json_for_media`, listed in the
order in which the strategies are attempted in the code (exact 1.0,
truncated 0.95, edited 0.9, numbered 0.85, supplementary 0.75, none 0.0). -/
def kindConfidences : List (String × ℚ) :=
  [("exact", 1), ("truncated", 0.95), ("edited", 0.9), ("numbered", 0.85),
   ("supplementary", 0.75), ("none", 0)]

/-! ### Helper lemmas -/

theorem fileExists_of_mem {d : Dir} {j : Name} (h : j ∈ d) : fileExists d j = true := by
  simpa [fileExists] using h

theorem mem_of_jsonFilesIn {d : Dir} {j : Name} (h : j ∈ jsonFilesIn d) : j ∈ d :=
  (List.mem_filter.mp h).1

/-- A name produced by the best-match loop is the running best or one of
the scanned candidates. -/
theorem truncLoop_mem {m : Name} : ∀ (js : List Name) {best : Option Name} {bl : Nat}
    {j : Name}, truncLoop m js best bl = some j → best = some j ∨ j ∈ js := by
  intro js
  induction js with
  | nil =>
    intro best bl j h
    simp only [truncLoop] at h
    exact Or.inl h
  | cons a rest ih =>
    intro best bl j h
    simp only [truncLoop] at h
    split at h
    · rcases ih h with h1 | h2
      · right
        rw [Option.some_inj.mp h1]
        exact List.mem_cons_self _ _
      · right
        exact List.mem_cons_of_mem _ h2
    · rcases ih h with h1 | h2
      · exact Or.inl h1
      · right
        exact List.mem_cons_of_mem _ h2

/-- A sidecar returned by the truncated strategy is one of the directory's
`.json` files. -/
theorem trunc_match_mem {d : Dir} {m j : Name} (h : _try_truncated_match d m = some j) :
    j ∈ jsonFilesIn d := by
  rcases truncLoop_mem (jsonFilesIn d) h with h1 | h2
  · exact absurd h1 (by simp)
  · exact h2

/-- A sidecar returned by the truncated strategy exists in the directory. -/
theorem trunc_match_exists {d : Dir} {m j : Name} (h : _try_truncated_match d m = some j) :
    fileExists d j = true :=
  fileExists_of_mem (mem_of_jsonFilesIn (trunc_match_mem h))

/-- A sidecar returned by the edited-pattern loop exists in the directory. -/
theorem editedLoop_exists {d : Dir} {stem ext j : Name} : ∀ (toks : List Name),
    editedLoop d stem ext toks = some j → fileExists d j = true := by
  intro toks
  induction toks with
  | nil => intro h; simp [editedLoop] at h
  | cons t rest ih =>
    intro h
    simp only [editedLoop] at h
    split at h
    · split at h
      · cases h; assumption
      · exact trunc_match_exists h
    · exact ih h

/-- A sidecar returned by the edited strategy exists in the directory. -/
theorem edited_match_exists {d : Dir} {m j : Name} (h : _try_edited_match d m = some j) :
    fileExists d j = true :=
  editedLoop_exists EDITED_PATTERNS h

/-- A sidecar returned by the numbered strategy exists in the directory. -/
theorem numbered_match_exists {d : Dir} {m j : Name}
    (h : _try_numbered_match d m = some j) : fileExists d j = true := by
  unfold _try_numbered_match at h
  cases hp : parseNumbered m with
  | none => rw [hp] at h; cases h
  | some t =>
    obtain ⟨base, num, ext⟩ := t
    rw [hp] at h
    simp only at h
    split at h
    · cases h; assumption
    · split at h
      · cases h; assumption
      · split at h
        · cases h; assumption
        · exact trunc_match_exists h

/-- A sidecar returned by the supplementary-pattern loop exists in the
directory. -/
theorem supplementaryLoop_exists {d : Dir} {stem ext j : Name} : ∀ (toks : List Name),
    supplementaryLoop d stem ext toks = some j → fileExists d j = true := by
  intro toks
  induction toks with
  | nil => intro h; simp [supplementaryLoop] at h
  | cons t rest ih =>
    intro h
    simp only [supplementaryLoop] at h
    split at h
    · split at h
      · cases h; assumption
      · exact trunc_match_exists h
    · exact ih h

/-- A sidecar returned by the supplementary strategy exists in the
directory. -/
theorem supplementary_match_exists {d : Dir} {m j : Name}
    (h : _try_supplementary_match d m = some j) : fileExists d j = true :=
  supplementaryLoop_exists SUPPLEMENTARY_SUFFIXES h

/-- Once the best-match loop holds a candidate it never returns `none`. -/
theorem truncLoop_isSome_of_best {m : Name} : ∀ (js : List Name) (b : Name) (bl : Nat),
    (truncLoop m js (some b) bl).isSome = true := by
  intro js
  induction js with
  | nil => intro b bl; simp [truncLoop]
  | cons a rest ih =>
    intro b bl
    simp only [truncLoop]
    split
    · exact ih _ _
    · exact ih _ _

/-- The best-match loop succeeds whenever it scans an accepted candidate
whose truncated media-name beats the current best length. -/
theorem truncLoop_isSome_of_acc {m : Name} : ∀ (js : List Name) (best : Option Name)
    (bl : Nat) (j : Name), j ∈ js → truncAccept m j = true →
    bl < (truncNameOf j).length → (truncLoop m js best bl).isSome = true := by
  intro js
  induction js with
  | nil => intro best bl j hj; exact absurd hj (List.not_mem_nil j)
  | cons a rest ih =>
    intro best bl j hj hacc hlen
    simp only [truncLoop]
    by_cases hc : (truncAccept m a && decide (bl < (truncNameOf a).length)) = true
    · rw [if_pos hc]
      exact truncLoop_isSome_of_best _ _ _
    · rw [if_neg hc]
      rcases List.mem_cons.mp hj with rfl | hj'
      · exact absurd (by simp [hacc, hlen]) hc
      · exact ih _ _ _ hj' hacc hlen

/-- Full characterisation of a successful best-match loop: the result is
the incoming best (and nothing scanned beats the incoming length), or it is
the first scanned accepted candidate of maximal truncated media-name
length — every accepted candidate before it is strictly shorter, every one
after it no longer. -/
theorem truncLoop_argmax {m : Name} : ∀ (js : List Name) (best : Option Name) (bl : Nat)
    {j : Name}, truncLoop m js best bl = some j →
    (best = some j ∧ ∀ x ∈ js, truncAccept m x = true → (truncNameOf x).length ≤ bl) ∨
    (∃ pre post, js = pre ++ j :: post ∧ truncAccept m j = true ∧
      bl < (truncNameOf j).length ∧
      (∀ x ∈ pre, truncAccept m x = true →
        (truncNameOf x).length < (truncNameOf j).length) ∧
      (∀ x ∈ post, truncAccept m x = true →
        (truncNameOf x).length ≤ (truncNameOf j).length)) := by
  intro js
  induction js with
  | nil =>
    intro best bl j h
    simp only [truncLoop] at h
    exact Or.inl ⟨h, by simp⟩
  | cons a rest ih =>
    intro best bl j h
    simp only [truncLoop] at h
    by_cases hc : (truncAccept m a && decide (bl < (truncNameOf a).length)) = true
    · rw [if_pos hc] at h
      have hp : truncAccept m a = true ∧ bl < (truncNameOf a).length := by simpa using hc
      have hacc : truncAccept m a = true := hp.1
      have hlen : bl < (truncNameOf a).length := hp.2
      rcases ih _ _ h with ⟨hb, hall⟩ | ⟨pre, post, heq, hj, hlt, hpre, hpost⟩
      · have ha : a = j := Option.some_inj.mp hb
        subst ha
        right
        refine ⟨[], rest, rfl, hacc, hlen, ?_, ?_⟩
        · intro x hx
          exact absurd hx (List.not_mem_nil x)
        · intro x hx hx2
          exact hall x hx hx2
      · right
        refine ⟨a :: pre, post, by simp [heq], hj, lt_trans hlen hlt, ?_, hpost⟩
        intro x hx hacc2
        rcases List.mem_cons.mp hx with rfl | hx2
        · exact hlt
        · exact hpre x hx2 hacc2
    · rw [if_neg hc] at h
      have hna : truncAccept m a = true → (truncNameOf a).length ≤ bl := by
        intro h2
        by_contra h3
        exact hc (by simp [h2, Nat.lt_of_not_le h3])
      rcases ih _ _ h with ⟨hb, hall⟩ | ⟨pre, post, heq, hj, hlt, hpre, hpost⟩
      · left
        refine ⟨hb, ?_⟩
        intro x hx hacc2
        rcases List.mem_cons.mp hx with rfl | hx2
        · exact hna hacc2
        · exact hall x hx2 hacc2
      · right
        refine ⟨a :: pre, post, by simp [heq], hj, hlt, ?_, hpost⟩
        intro x hx hacc2
        rcases List.mem_cons.mp hx with rfl | hx2
        · exact lt_of_le_of_lt (hna hacc2) hlt
        · exact hpre x hx2 hacc2

/-- When the truncated strategy succeeds, the full match is not the
no-match result (the media file is matched with kind `exact` or
`truncated`). -/
theorem find_ne_none_of_trunc {d : Dir} {m : Name}
    (h : (_try_truncated_match d m).isSome = true) :
    (find_json_for_media d m).match_type ≠ "none" := by
  unfold find_json_for_media
  split
  · simp
  · cases ht : _try_truncated_match d m with
    | none => rw [ht] at h; simp at h
    | some j => simp

/-- Case analysis of `find_json_for_media`: either no strategy succeeded
and the result is the no-match record, or the result carries an existing
sidecar and one of the five strategy kind/confidence pairs. -/
theorem find_cases (d : Dir) (m : Name) :
    find_json_for_media d m = ⟨m, none, "none", 0⟩ ∨
    ∃ j t c, find_json_for_media d m = ⟨m, some j, t, c⟩ ∧ fileExists d j = true ∧
      (t, c) ∈ [("exact", (1 : ℚ)), ("truncated", 0.95), ("edited", 0.9),
                ("numbered", 0.85), ("supplementary", 0.75)] := by
  unfold find_json_for_media
  split
  · right
    exact ⟨m ++ dotJson, "exact", 1, rfl, by assumption, by simp⟩
  · cases h1 : _try_truncated_match d m with
    | some j =>
      right
      exact ⟨j, "truncated", 0.95, rfl, trunc_match_exists h1, by simp⟩
    | none =>
      cases h2 : _try_edited_match d m with
      | some j =>
        right
        exact ⟨j, "edited", 0.9, rfl, edited_match_exists h2, by simp⟩
      | none =>
        cases h3 : _try_numbered_match d m with
        | some j =>
          right
          exact ⟨j, "numbered", 0.85, rfl, numbered_match_exists h3, by simp⟩
        | none =>
          cases h4 : _try_supplementary_match d m with
          | some j =>
            right
            exact ⟨j, "supplementary", 0.75, rfl, supplementary_match_exists h4, by simp⟩
          | none =>
            left
            rfl

/-- A file listed by the directory index ends, case-insensitively, with
`.json` (its lowercased pathlib suffix equals `.json`). -/
theorem endswith_json_of_mem {d : Dir} {x : Name} (hx : x ∈ jsonFilesIn d) :
    dotJson.isSuffixOf (lowerName x) = true := by
  have hc := (List.mem_filter.mp hx).2
  have heq : lowerName (suffixOf x) = dotJson := by simpa using hc
  have hs : suffixOf x <:+ x := by
    unfold suffixOf
    split
    · exact List.nil_suffix
    · split
      · exact List.drop_suffix _ _
      · exact List.nil_suffix
  have hmap : lowerName (suffixOf x) <:+ lowerName x := hs.map Char.toLower
  rw [heq] at hmap
  simpa using hmap

/-- An accepted truncated candidate has a truncated media-name of at least
5 characters. -/
theorem truncAccept_min_length {m j : Name} (h : truncAccept m j = true) :
    5 ≤ (truncNameOf j).length := by
  unfold truncAccept at h
  simp only [Bool.and_eq_true, decide_eq_true_eq] at h
  exact h.2.1

/-! ### Claims -/

/-- C1: for every media file whose bare-suffix sidecar (`name + ".json"`)
exists in its directory, `find_json_for_media` returns exactly that sidecar
with kind `exact` and confidence `1.0`, regardless of any other candidate
sidecars present. -/
theorem claim_C1_exact_priority (d : Dir) (m : Name)
    (h : fileExists d (m ++ dotJson) = true) :
    find_json_for_media d m = ⟨m, some (m ++ dotJson), "exact", 1⟩ := by
  unfold find_json_for_media
  rw [if_pos h]

/-- Witness for C1: a directory that also holds a truncated candidate and
an edited-style candidate still yields the exact sidecar. -/
theorem claim_C1_witness :
    find_json_for_media
      ["photo.jpg".toList, "photo.jpg.json".toList, "photo.j.json".toList,
       "photo-edited.jpg.json".toList] "photo.jpg".toList =
    ⟨"photo.jpg".toList, some ("photo.jpg".toList ++ dotJson), "exact", 1⟩ :=
  claim_C1_exact_priority _ _ (by decide)

/-- C2: every `MatchResult` of `find_json_for_media` satisfies the
invariant that `json_path` is `none` exactly when `match_type` is `"none"`
and `confidence` is `0.0`, and a returned sidecar path always exists in
the directory at matching time. -/
theorem claim_C2_result_invariant (d : Dir) (m : Name) :
    ((find_json_for_media d m).json_path = none ↔
      ((find_json_for_media d m).match_type = "none" ∧
       (find_json_for_media d m).confidence = 0)) ∧
    (∀ j : Name, (find_json_for_media d m).json_path = some j →
      fileExists d j = true) := by
  rcases find_cases d m with h | ⟨j, t, c, heq, hex, hmem⟩
  · rw [h]
    refine ⟨by simp, ?_⟩
    intro j hj
    simp at hj
  · rw [heq]
    constructor
    · simp only [iff_def]
      constructor
      · intro hc
        simp at hc
      · rintro ⟨ht, hc0⟩
        subst ht
        simp at hmem
    · intro j2 hj2
      simp only [Option.some_inj] at hj2
      rw [← hj2]
      exact hex

/-- Witness for C2: the existence conjunct evaluated on a directory with
one exact sidecar. -/
theorem claim_C2_witness :
    fileExists ["beach.png".toList, "beach.png.json".toList] "beach.png.json".toList
      = true :=
  (claim_C2_result_invariant ["beach.png".toList, "beach.png.json".toList]
    "beach.png".toList).2 "beach.png.json".toList (by decide)

/-- C3 counterexample: a media file matched by the truncated strategy gets
confidence 0.95, not 0.8 as the claim states. -/
theorem claim_C3_counterexample :
    (find_json_for_media
        ["screensaver_long.jpg".toList, "screensaver_long.j.json".toList]
        "screensaver_long.jpg".toList).match_type = "truncated" ∧
    (find_json_for_media
        ["screensaver_long.jpg".toList, "screensaver_long.j.json".toList]
        "screensaver_long.jpg".toList).confidence ≠ 0.8 :=
  ⟨by decide, show (0.95 : ℚ) ≠ 0.8 by norm_num⟩

/-- C3 (amended): every truncated-strategy match has kind `truncated` and
confidence 0.95 (not 0.8); kind/confidence pairs always come from the
fixed table `kindConfidences`, whose confidences are strictly decreasing
in the order in which the strategies are attempted. -/
theorem claim_C3_amended_confidences (d : Dir) (m : Name) :
    ((find_json_for_media d m).match_type, (find_json_for_media d m).confidence)
      ∈ kindConfidences ∧
    ((find_json_for_media d m).match_type = "truncated" →
      (find_json_for_media d m).confidence = 0.95) ∧
    kindConfidences.Chain' (fun a b => b.2 < a.2) := by
  have hmain : ((find_json_for_media d m).match_type,
      (find_json_for_media d m).confidence) ∈ kindConfidences := by
    rcases find_cases d m with h | ⟨j, t, c, heq, hex, hmem⟩
    · rw [h]
      simp [kindConfidences]
    · rw [heq]
      simp only [kindConfidences]
      simp at hmem ⊢
      tauto
  refine ⟨hmain, ?_, ?_⟩
  · intro ht
    rw [ht] at hmain
    simp [kindConfidences] at hmain
    exact hmain
  · simp [kindConfidences, List.chain'_cons]
    norm_num

/-- Witness for C3 (amended): a truncated match evaluated concretely has
confidence 0.95. -/
theorem claim_C3_witness :
    (find_json_for_media
        ["vacation_photo_x.jpg".toList, "vacation_photo_x.jp.json".toList]
        "vacation_photo_x.jpg".toList).confidence = 0.95 :=
  (claim_C3_amended_confidences
      ["vacation_photo_x.jpg".toList, "vacation_photo_x.jp.json".toList]
      "vacation_photo_x.jpg".toList).2.1 (by decide)

/-- C9: `find_json_for_media` is a total function: on every directory
listing and every filename it returns a result whose `media_path` is the
input, whose kind is one of the six known kinds, and which is exactly the
no-match record whenever no strategy produced a sidecar. -/
theorem claim_C9_total_function (d : Dir) (m : Name) :
    (find_json_for_media d m).media_path = m ∧
    (find_json_for_media d m).match_type ∈
      ["exact", "truncated", "edited", "numbered", "supplementary", "none"] ∧
    ((find_json_for_media d m).json_path = none →
      find_json_for_media d m = ⟨m, none, "none", 0⟩) := by
  rcases find_cases d m with h | ⟨j, t, c, heq, hex, hmem⟩
  · rw [h]
    exact ⟨rfl, by simp, fun _ => rfl⟩
  · rw [heq]
    refine ⟨rfl, ?_, ?_⟩
    · simp at hmem ⊢
      tauto
    · intro hn
      simp at hn

/-- Witness for C9: a unicode filename with embedded punctuation and
multiple dots, in an empty directory, yields the no-match record. -/
theorem claim_C9_witness :
    find_json_for_media [] "Üben.多.dots..файл, (x).jpg".toList =
      ⟨"Üben.多.dots..файл, (x).jpg".toList, none, "none", 0⟩ :=
  (claim_C9_total_function [] "Üben.多.dots..файл, (x).jpg".toList).2.2 (by decide)

/-- C10: `find_orphaned_json_files` only reports files recognised by
`is_json_metadata_file`; an album-level `metadata.json` is never reported,
even with no media file present. -/
theorem claim_C10_orphans_recognised :
    (∀ (d : Dir) (j : Name), j ∈ find_orphaned_json_files d →
      is_json_metadata_file j = true) ∧
    is_json_metadata_file "metadata.json".toList = false ∧
    find_orphaned_json_files ["metadata.json".toList] = [] := by
  refine ⟨?_, by decide, by decide⟩
  intro d j h
  unfold find_orphaned_json_files at h
  have h2 := (List.mem_filter.mp h).2
  simp only [Bool.and_eq_true] at h2
  exact h2.1.1

/-- Witness for C10: an orphaned sidecar is reported and is recognised as
a metadata file. -/
theorem claim_C10_witness :
    is_json_metadata_file "orphan.jpg.json".toList = true :=
  claim_C10_orphans_recognised.1
    ["orphan.jpg.json".toList, "metadata.json".toList]
    "orphan.jpg.json".toList (by decide)

/-- C4 counterexample: the truncated strategy runs before the edited one,
so with `trip-edited.jpg`, `trip.jpg.json` and the extra candidate
`trip-edited.j.json` present, the match is `truncated` at the extra
candidate, not `edited` at the original's sidecar as the claim states. -/
theorem claim_C4_counterexample :
    (find_json_for_media
        ["trip-edited.jpg".toList, "trip.jpg.json".toList, "trip-edited.j.json".toList]
        "trip-edited.jpg".toList).match_type = "truncated" ∧
    (find_json_for_media
        ["trip-edited.jpg".toList, "trip.jpg.json".toList, "trip-edited.j.json".toList]
        "trip-edited.jpg".toList).json_path = some "trip-edited.j.json".toList ∧
    (find_json_for_media
        ["trip-edited.jpg".toList, "trip.jpg.json".toList, "trip-edited.j.json".toList]
        "trip-edited.jpg".toList).json_path ≠ some "trip.jpg.json".toList :=
  ⟨by decide, by decide, by decide⟩

/-- C4 (amended): when neither the exact nor the (higher-priority)
truncated strategy matches, a media file whose stem ends with the
`-edited` token (case-insensitively) and whose original's bare-suffix
sidecar exists is matched to that sidecar with kind `edited` and
confidence 0.9. -/
theorem claim_C4_amended_edited (d : Dir) (m : Name)
    (h1 : fileExists d (m ++ dotJson) = false)
    (h2 : _try_truncated_match d m = none)
    (h3 : ("-edited".toList).isSuffixOf (lowerName (stemOf m)) = true)
    (h4 : fileExists d
      (pyDropLast (stemOf m) ("-edited".toList).length ++ suffixOf m ++ dotJson) = true) :
    find_json_for_media d m =
      ⟨m, some (pyDropLast (stemOf m) ("-edited".toList).length ++ suffixOf m ++ dotJson),
        "edited", 0.9⟩ := by
  have hedit : _try_edited_match d m =
      some (pyDropLast (stemOf m) ("-edited".toList).length ++ suffixOf m ++ dotJson) := by
    unfold _try_edited_match EDITED_PATTERNS
    simp only [editedLoop, editedStrip]
    rw [if_pos h3]
    simp only
    rw [if_pos h4]
  unfold find_json_for_media
  rw [h1]
  simp only [Bool.false_eq_true, if_false]
  rw [h2, hedit]

/-- Witness for C4 (amended): `vacation-edited.png` with only
`vacation.png.json` present. -/
theorem claim_C4_witness :
    find_json_for_media ["vacation-edited.png".toList, "vacation.png.json".toList]
        "vacation-edited.png".toList =
      ⟨"vacation-edited.png".toList,
        some (pyDropLast (stemOf "vacation-edited.png".toList) ("-edited".toList).length
          ++ suffixOf "vacation-edited.png".toList ++ dotJson),
        "edited", 0.9⟩ :=
  claim_C4_amended_edited _ _ (by decide) (by decide) (by decide) (by decide)

/-- C5: the numbered strategy, on a filename of shape
`base(number).ext`, tries `base(number).ext.json`, then
`base.ext(number).json`, then `base.ext.json`, the first existing
candidate winning; in particular with only `photo.jpg.json` present,
`photo(1).jpg` is matched to it with kind `numbered`, confidence 0.85. -/
theorem claim_C5_numbered_order :
    (∀ (d : Dir) (m base num ext : Name), parseNumbered m = some (base, num, ext) →
      (fileExists d (base ++ num ++ ext ++ dotJson) = true →
        _try_numbered_match d m = some (base ++ num ++ ext ++ dotJson)) ∧
      (fileExists d (base ++ num ++ ext ++ dotJson) = false →
       fileExists d (base ++ ext ++ num ++ dotJson) = true →
        _try_numbered_match d m = some (base ++ ext ++ num ++ dotJson)) ∧
      (fileExists d (base ++ num ++ ext ++ dotJson) = false →
       fileExists d (base ++ ext ++ num ++ dotJson) = false →
       fileExists d (base ++ ext ++ dotJson) = true →
        _try_numbered_match d m = some (base ++ ext ++ dotJson))) ∧
    find_json_for_media ["photo(1).jpg".toList, "photo.jpg.json".toList]
        "photo(1).jpg".toList =
      ⟨"photo(1).jpg".toList, some "photo.jpg.json".toList, "numbered", 0.85⟩ := by
  constructor
  · intro d m base num ext hp
    unfold _try_numbered_match
    rw [hp]
    refine ⟨?_, ?_, ?_⟩
    · intro e1
      simp only
      rw [if_pos e1]
    · intro e1 e2
      simp only
      rw [e1]
      simp only [Bool.false_eq_true, if_false]
      rw [if_pos e2]
    · intro e1 e2 e3
      simp only
      rw [e1, e2]
      simp only [Bool.false_eq_true, if_false]
      rw [if_pos e3]
  · rfl

/-- Witness for C5: the first placement `base(number).ext.json` wins when
it exists. -/
theorem claim_C5_witness :
    _try_numbered_match ["img(2).png".toList, "img(2).png.json".toList]
        "img(2).png".toList =
      some ("img".toList ++ "(2)".toList ++ ".png".toList ++ dotJson) :=
  (claim_C5_numbered_order.1 ["img(2).png".toList, "img(2).png.json".toList]
    "img(2).png".toList "img".toList "(2)".toList ".png".toList (by decide)).1 (by decide)

/-- C6 counterexample: the media file is matched via the truncated
strategy, two candidates' truncated basenames are case-insensitive
prefixes of the media filename, yet the selected sidecar is a
trailing-whitespace candidate whose truncated basename is not such a
prefix at all. -/
theorem claim_C6_counterexample :
    (find_json_for_media
        ["abcdefgh.jpg".toList, "abcde.json".toList, "abcd.json".toList,
         "abcdef  .json".toList] "abcdefgh.jpg".toList).match_type = "truncated" ∧
    (lowerName (truncNameOf "abcde.json".toList)).isPrefixOf
        (lowerName "abcdefgh.jpg".toList) = true ∧
    (lowerName (truncNameOf "abcd.json".toList)).isPrefixOf
        (lowerName "abcdefgh.jpg".toList) = true ∧
    (find_json_for_media
        ["abcdefgh.jpg".toList, "abcde.json".toList, "abcd.json".toList,
         "abcdef  .json".toList] "abcdefgh.jpg".toList).json_path =
      some "abcdef  .json".toList ∧
    (lowerName (truncNameOf "abcdef  .json".toList)).isPrefixOf
        (lowerName "abcdefgh.jpg".toList) = false :=
  ⟨by decide, by decide, by decide, by decide, by decide⟩

/-- C6 (amended): a sidecar selected by the truncated strategy is an
accepted candidate (length at least 5, and a case-insensitive prefix of
the media filename either literally or after right-stripping trailing
whitespace); its truncated basename length is maximal among all accepted
candidates and no shorter than that of any prefix candidate, and every
accepted candidate listed before it is strictly shorter — so the
earliest-listed candidate wins ties. -/
theorem claim_C6_amended_longest (d : Dir) (m j : Name)
    (h : _try_truncated_match d m = some j) :
    truncAccept m j = true ∧ j ∈ jsonFilesIn d ∧
    (∀ x ∈ jsonFilesIn d, truncAccept m x = true →
      (truncNameOf x).length ≤ (truncNameOf j).length) ∧
    (∀ x ∈ jsonFilesIn d,
      (lowerName (truncNameOf x)).isPrefixOf (lowerName m) = true →
      (truncNameOf x).length ≤ (truncNameOf j).length) ∧
    (∃ pre post, jsonFilesIn d = pre ++ j :: post ∧
      ∀ x ∈ pre, truncAccept m x = true →
        (truncNameOf x).length < (truncNameOf j).length) := by
  rcases truncLoop_argmax (jsonFilesIn d) none 0 h with ⟨hb, _⟩ |
    ⟨pre, post, heq, hj, _, hpre, hpost⟩
  · exact absurd hb (by simp)
  · have hmem : j ∈ jsonFilesIn d := by
      rw [heq]
      exact List.mem_append_right _ (List.mem_cons_self _ _)
    have hall : ∀ x ∈ jsonFilesIn d, truncAccept m x = true →
        (truncNameOf x).length ≤ (truncNameOf j).length := by
      intro x hx hacc
      rw [heq] at hx
      rcases List.mem_append.mp hx with hx1 | hx2
      · exact le_of_lt (hpre x hx1 hacc)
      · rcases List.mem_cons.mp hx2 with rfl | hx3
        · exact le_refl _
        · exact hpost x hx3 hacc
    refine ⟨hj, hmem, hall, ?_, pre, post, heq, hpre⟩
    intro x hx hpref
    by_cases hacc : truncAccept m x = true
    · exact hall x hx hacc
    · have hlt5 : (truncNameOf x).length < 5 := by
        by_contra hge
        refine hacc ?_
        unfold truncAccept
        simp only [Bool.and_eq_true, decide_eq_true_eq, Bool.or_eq_true]
        exact ⟨endswith_json_of_mem hx, Nat.le_of_not_lt hge, Or.inl hpref⟩
      exact le_trans (Nat.le_of_lt hlt5) (truncAccept_min_length hj)

/-- Witness for C6 (amended): the longer of two literal-prefix candidates
is selected and accepted. -/
theorem claim_C6_witness :
    truncAccept "pic_abcdef.jpg".toList "pic_abcd.json".toList = true :=
  (claim_C6_amended_longest
    ["pic_abcdef.jpg".toList, "pic_ab.json".toList, "pic_abcd.json".toList]
    "pic_abcdef.jpg".toList "pic_abcd.json".toList (by decide)).1

/-- C7 counterexample: a sidecar whose truncated basename (`a.j`, shorter
than 5 characters) is a case-insensitive prefix of the media filename is
not accepted: with `a.jpg` and `a.j.json` the match is the no-match
record, against the claim's "no lower bound on the length". -/
theorem claim_C7_counterexample :
    (lowerName (truncNameOf "a.j.json".toList)).isPrefixOf
        (lowerName "a.jpg".toList) = true ∧
    "a.j.json".toList ∈ jsonFilesIn ["a.jpg".toList, "a.j.json".toList] ∧
    find_json_for_media ["a.jpg".toList, "a.j.json".toList] "a.jpg".toList =
      ⟨"a.jpg".toList, none, "none", 0⟩ :=
  ⟨by decide, by decide, rfl⟩

/-- C7 (amended): a `.json` candidate is accepted by the truncated
strategy whenever its stripped basename has at least 5 characters (the
code's lower bound) and is a case-insensitive prefix of the media
filename; whenever the directory holds an accepted candidate the match is
never the no-match kind. -/
theorem claim_C7_amended_accept :
    (∀ (m j : Name), dotJson.isSuffixOf (lowerName j) = true →
      5 ≤ (truncNameOf j).length →
      (lowerName (truncNameOf j)).isPrefixOf (lowerName m) = true →
      truncAccept m j = true) ∧
    (∀ (d : Dir) (m j : Name), j ∈ jsonFilesIn d → truncAccept m j = true →
      (_try_truncated_match d m).isSome = true ∧
      (find_json_for_media d m).match_type ≠ "none") := by
  constructor
  · intro m j h1 h2 h3
    unfold truncAccept
    simp only [Bool.and_eq_true, decide_eq_true_eq, Bool.or_eq_true]
    exact ⟨h1, h2, Or.inl h3⟩
  · intro d m j hmem hacc
    have hs : (_try_truncated_match d m).isSome = true :=
      truncLoop_isSome_of_acc (jsonFilesIn d) none 0 j hmem hacc
        (Nat.lt_of_lt_of_le (by decide) (truncAccept_min_length hacc))
    exact ⟨hs, find_ne_none_of_trunc hs⟩

/-- Witness for C7 (amended): `holiday.j.json` is accepted for
`holiday.jpg` and forces a non-`none` match. -/
theorem claim_C7_witness :
    truncAccept "holiday.jpg".toList "holiday.j.json".toList = true ∧
    (find_json_for_media ["holiday.jpg".toList, "holiday.j.json".toList]
      "holiday.jpg".toList).match_type ≠ "none" :=
  ⟨claim_C7_amended_accept.1 "holiday.jpg".toList "holiday.j.json".toList
      (by decide) (by decide) (by decide),
   (claim_C7_amended_accept.2 ["holiday.jpg".toList, "holiday.j.json".toList]
      "holiday.jpg".toList "holiday.j.json".toList (by decide)
      (claim_C7_amended_accept.1 "holiday.jpg".toList "holiday.j.json".toList
        (by decide) (by decide) (by decide))).2⟩

/-- C8: the directory index lists the filesystem at most once per
directory: a cache hit returns the cached list with the state unchanged;
a cache miss performs exactly one listing and caches the filtered result;
a listing error is caught, logged as a warning, and cached as the empty
list; a repeated call returns the cached result and changes nothing; and
`clear_cache` discards every cached entry. -/
theorem claim_C8_directory_index :
    (∀ (fs : FsOracle) (st : MatcherState) (dk : Nat) (l : List Name),
      cacheLookup st.json_cache dk = some l →
      _get_json_files_in_directory fs st dk = (l, st)) ∧
    (∀ (fs : FsOracle) (st : MatcherState) (dk : Nat) (es : List DirEntry),
      cacheLookup st.json_cache dk = none → fs dk = Except.ok es →
      _get_json_files_in_directory fs st dk =
        (filterJsonEntries es,
         { st with json_cache := (dk, filterJsonEntries es) :: st.json_cache,
                   fs_listings := st.fs_listings + 1 })) ∧
    (∀ (fs : FsOracle) (st : MatcherState) (dk : Nat) (e : String),
      cacheLookup st.json_cache dk = none → fs dk = Except.error e →
      _get_json_files_in_directory fs st dk =
        ([], { st with json_cache := (dk, []) :: st.json_cache,
                       fs_listings := st.fs_listings + 1,
                       warnings_logged := st.warnings_logged + 1 })) ∧
    (∀ (fs : FsOracle) (st : MatcherState) (dk : Nat),
      _get_json_files_in_directory fs (_get_json_files_in_directory fs st dk).2 dk =
        _get_json_files_in_directory fs st dk) ∧
    (∀ st : MatcherState, (clear_cache st).json_cache = []) := by
  have hhit : ∀ (fs : FsOracle) (st : MatcherState) (dk : Nat) (l : List Name),
      cacheLookup st.json_cache dk = some l →
      _get_json_files_in_directory fs st dk = (l, st) := by
    intro fs st dk l h
    unfold _get_json_files_in_directory
    rw [h]
  have hok : ∀ (fs : FsOracle) (st : MatcherState) (dk : Nat) (es : List DirEntry),
      cacheLookup st.json_cache dk = none → fs dk = Except.ok es →
      _get_json_files_in_directory fs st dk =
        (filterJsonEntries es,
         { st with json_cache := (dk, filterJsonEntries es) :: st.json_cache,
                   fs_listings := st.fs_listings + 1 }) := by
    intro fs st dk es h1 h2
    unfold _get_json_files_in_directory
    rw [h1, h2]
  have herr : ∀ (fs : FsOracle) (st : MatcherState) (dk : Nat) (e : String),
      cacheLookup st.json_cache dk = none → fs dk = Except.error e →
      _get_json_files_in_directory fs st dk =
        ([], { st with json_cache := (dk, []) :: st.json_cache,
                       fs_listings := st.fs_listings + 1,
                       warnings_logged := st.warnings_logged + 1 }) := by
    intro fs st dk e h1 h2
    unfold _get_json_files_in_directory
    rw [h1, h2]
  refine ⟨hhit, hok, herr, ?_, fun _ => rfl⟩
  intro fs st dk
  cases h1 : cacheLookup st.json_cache dk with
  | some l =>
    rw [hhit fs st dk l h1]
    exact hhit fs st dk l h1
  | none =>
    cases h2 : fs dk with
    | ok es =>
      rw [hok fs st dk es h1 h2]
      exact hhit fs _ dk _ (by simp [cacheLookup])
    | error e =>
      rw [herr fs st dk e h1 h2]
      exact hhit fs _ dk _ (by simp [cacheLookup])

/-- Witness for C8: a failing listing is cached as empty with one listing
and one warning recorded. -/
theorem claim_C8_witness :
    _get_json_files_in_directory (fun _ => Except.error "denied") ⟨[], 0, 0⟩ 7 =
      ([], ⟨[(7, [])], 1, 1⟩) :=
  claim_C8_directory_index.2.2.1 (fun _ => Except.error "denied") ⟨[], 0, 0⟩ 7
    "denied" (by decide) rfl

end GPhotos
